import Mathlib

/-!
Verification development for a minimal proof-of-work ledger engine.

The engine under study consists of a `Blockchain` class (transaction pool,
chain of block dictionaries, SHA-256 canonical hashing, proof-of-work search,
chain validation, longest-valid-chain consensus) together with a thin HTTP
layer whose `mine` handler drives the mint flow.

Python reference semantics matter here: the transaction pool and the
`transactions` entry of a freshly minted block are the same list object.  The
embedding therefore threads an explicit heap of list objects through the
engine state.  Machine words are `Nat` reduced modulo `2 ^ 32`, bytes are
`Nat` below 256, and the canonical JSON serialization mirrors
`json.dumps(block, sort_keys=True)` for the block shapes the engine builds.
-/

set_option maxRecDepth 8000

namespace Blkchn

/-! ### SHA-256 over byte lists, modelling `hashlib.sha256` -/

def wmask (x : Nat) : Nat := x % 4294967296

def rotr (n x : Nat) : Nat := wmask ((x >>> n) ||| (x <<< (32 - n)))

def chf (x y z : Nat) : Nat := (x &&& y) ^^^ ((x ^^^ 4294967295) &&& z)

def majf (x y z : Nat) : Nat := (x &&& y) ^^^ (x &&& z) ^^^ (y &&& z)

def bsig0 (x : Nat) : Nat := rotr 2 x ^^^ rotr 13 x ^^^ rotr 22 x

def bsig1 (x : Nat) : Nat := rotr 6 x ^^^ rotr 11 x ^^^ rotr 25 x

def ssig0 (x : Nat) : Nat := rotr 7 x ^^^ rotr 18 x ^^^ (x >>> 3)

def ssig1 (x : Nat) : Nat := rotr 17 x ^^^ rotr 19 x ^^^ (x >>> 10)

def K256 : List Nat := [
  1116352408, 1899447441, 3049323471, 3921009573, 961987163, 1508970993, 2453635748, 2870763221,
  3624381080, 310598401, 607225278, 1426881987, 1925078388, 2162078206, 2614888103, 3248222580,
  3835390401, 4022224774, 264347078, 604807628, 770255983, 1249150122, 1555081692, 1996064986,
  2554220882, 2821834349, 2952996808, 3210313671, 3336571891, 3584528711, 113926993, 338241895,
  666307205, 773529912, 1294757372, 1396182291, 1695183700, 1986661051, 2177026350, 2456956037,
  2730485921, 2820302411, 3259730800, 3345764771, 3516065817, 3600352804, 4094571909, 275423344,
  430227734, 506948616, 659060556, 883997877, 958139571, 1322822218, 1537002063, 1747873779,
  1955562222, 2024104815, 2227730452, 2361852424, 2428436474, 2756734187, 3204031479, 3329325298]

def H256 : List Nat :=
  [1779033703, 3144134277, 1013904242, 2773480762, 1359893119, 2600822924, 528734635, 1541459225]

def be8 (n : Nat) : List Nat :=
  [(n >>> 56) % 256, (n >>> 48) % 256, (n >>> 40) % 256, (n >>> 32) % 256,
   (n >>> 24) % 256, (n >>> 16) % 256, (n >>> 8) % 256, n % 256]

def padBytes (msg : List Nat) : List Nat :=
  msg ++ 128 :: List.replicate ((119 - msg.length % 64) % 64) 0 ++ be8 (msg.length * 8)

def toWords : List Nat → List Nat
  | b0 :: b1 :: b2 :: b3 :: rest =>
      (b0 * 16777216 + b1 * 65536 + b2 * 256 + b3) :: toWords rest
  | _ => []

/-- A window of the last sixteen message-schedule words. -/
structure Window where
  s0 : Nat
  s1 : Nat
  s2 : Nat
  s3 : Nat
  s4 : Nat
  s5 : Nat
  s6 : Nat
  s7 : Nat
  s8 : Nat
  s9 : Nat
  s10 : Nat
  s11 : Nat
  s12 : Nat
  s13 : Nat
  s14 : Nat
  s15 : Nat

/-- Message-schedule recurrence
`w[t] = ssig1 w[t-2] + w[t-7] + ssig0 w[t-15] + w[t-16]`, carried as a
sliding window of the last sixteen words. -/
def windowWords : Nat → Window → List Nat
  | 0, _ => []
  | n + 1, w =>
      let x := wmask (ssig1 w.s14 + w.s9 + ssig0 w.s1 + w.s0)
      x :: windowWords n ⟨w.s1, w.s2, w.s3, w.s4, w.s5, w.s6, w.s7, w.s8,
                          w.s9, w.s10, w.s11, w.s12, w.s13, w.s14, w.s15, x⟩

def extendWords (ws : List Nat) : List Nat :=
  match ws with
  | [w0, w1, w2, w3, w4, w5, w6, w7, w8, w9, w10, w11, w12, w13, w14, w15] =>
      ws ++ windowWords 48 ⟨w0, w1, w2, w3, w4, w5, w6, w7, w8, w9, w10, w11, w12, w13, w14, w15⟩
  | other => other

def roundStep (st : List Nat) (kw : Nat × Nat) : List Nat :=
  match st with
  | [a, b, c, d, e, f, g, h] =>
      let t1 := wmask (h + bsig1 e + chf e f g + kw.1 + kw.2)
      let t2 := wmask (bsig0 a + majf a b c)
      [wmask (t1 + t2), a, b, c, wmask (d + t1), e, f, g]
  | other => other

def compress (h : List Nat) (blockBytes : List Nat) : List Nat :=
  let ws := extendWords (toWords blockBytes)
  let fin := (K256.zip ws).foldl roundStep h
  (h.zip fin).map (fun p => wmask (p.1 + p.2))

def sha256Loop : List Nat → List Nat → List Nat → List Nat
  | _, h, [] => h
  | acc, h, b :: rest =>
      let acc1 := acc ++ [b]
      if acc1.length == 64 then sha256Loop [] (compress h acc1) rest
      else sha256Loop acc1 h rest

def hexDigitChar (n : Nat) : Char :=
  if n < 10 then Char.ofNat (48 + n) else Char.ofNat (87 + n)

def hex8 (n : Nat) : String :=
  String.mk [hexDigitChar ((n >>> 28) % 16), hexDigitChar ((n >>> 24) % 16),
             hexDigitChar ((n >>> 20) % 16), hexDigitChar ((n >>> 16) % 16),
             hexDigitChar ((n >>> 12) % 16), hexDigitChar ((n >>> 8) % 16),
             hexDigitChar ((n >>> 4) % 16), hexDigitChar (n % 16)]

def digestHex (ws : List Nat) : String :=
  hex8 (ws.getD 0 0) ++ hex8 (ws.getD 1 0) ++ hex8 (ws.getD 2 0) ++ hex8 (ws.getD 3 0) ++
  hex8 (ws.getD 4 0) ++ hex8 (ws.getD 5 0) ++ hex8 (ws.getD 6 0) ++ hex8 (ws.getD 7 0)

def utf8Bytes (c : Nat) : List Nat :=
  if c < 128 then [c]
  else if c < 2048 then [192 + c / 64, 128 + c % 64]
  else if c < 65536 then [224 + c / 4096, 128 + (c / 64) % 64, 128 + c % 64]
  else [240 + c / 262144, 128 + (c / 4096) % 64, 128 + (c / 64) % 64, 128 + c % 64]

def strBytes (s : String) : List Nat :=
  s.data.foldr (fun c acc => utf8Bytes c.toNat ++ acc) []

def sha256hex (s : String) : String :=
  digestHex (sha256Loop [] H256 (padBytes (strBytes s)))

/-- FIPS 180-4 test vector, cross-checking the embedding of `hashlib.sha256`. -/
theorem sha256hex_abc :
    sha256hex "abc" = "ba7816bf8f01cfea414140de5dae2223b00361a396177a9cb410ff61f20015ad" := by
  decide

/-- Two-block test vector (message longer than 55 bytes). -/
theorem sha256hex_two_blocks :
    sha256hex "abcdbcdecdefdefgefghfghighijhijkijkljklmklmnlmnomnopnopq" =
      "248d6a61d20638b8e5c026930c3e6039a33ce45964ff2167f6ecedd419db06c1" := by
  decide

/-! ### Canonical JSON serialization, modelling `json.dumps(obj, sort_keys=True)`

The engine only ever serializes block dictionaries whose values are integers,
strings, or lists of flat transaction dictionaries with integer or string
values, so the JSON value type is specialized to exactly those shapes.
`created_at` is modelled as an integer timestamp supplied by the caller
(`time.time` returns a float; real wall-clock time is outside the embedding,
and the claims under study do not depend on fractional timestamps). -/

inductive JVal where
  | jnum (n : Int)
  | jstr (s : String)

abbrev Txn := List (String × JVal)

inductive JField where
  | fnum (n : Int)
  | fstr (s : String)
  | ftxns (ts : List Txn)

abbrev BlockDict := List (String × JField)

def hex4 (n : Nat) : String :=
  String.mk [hexDigitChar ((n >>> 12) % 16), hexDigitChar ((n >>> 8) % 16),
             hexDigitChar ((n >>> 4) % 16), hexDigitChar (n % 16)]

/-- One character of `json.encoder.py_encode_basestring_ascii`. -/
def escapeChar (c : Char) : String :=
  if c = '"' then "\\\""
  else if c = '\\' then "\\\\"
  else if c = '\n' then "\\n"
  else if c = '\r' then "\\r"
  else if c = '\t' then "\\t"
  else if c.toNat = 8 then "\\b"
  else if c.toNat = 12 then "\\f"
  else if 32 ≤ c.toNat ∧ c.toNat ≤ 126 then String.singleton c
  else if c.toNat < 65536 then "\\u" ++ hex4 c.toNat
  else "\\u" ++ hex4 (55296 + (c.toNat - 65536) / 1024) ++
       "\\u" ++ hex4 (56320 + (c.toNat - 65536) % 1024)

def jsonStr (s : String) : String :=
  "\"" ++ s.data.foldl (fun acc c => acc ++ escapeChar c) "" ++ "\""

/-- `", ".join`, the default item separator of `json.dumps`. -/
def joinComma : List String → String
  | [] => ""
  | [x] => x
  | x :: rest => x ++ ", " ++ joinComma rest

/-- Python string comparison: lexicographic on code points, a proper initial
segment sorting before its extensions. -/
def charListLe : List Char → List Char → Bool
  | [], _ => true
  | _ :: _, [] => false
  | a :: as, b :: bs =>
      if a.toNat < b.toNat then true
      else if b.toNat < a.toNat then false
      else charListLe as bs

def keyLe (a b : String) : Bool := charListLe a.data b.data

abbrev keyRel {α : Type} (a b : String × α) : Prop := keyLe a.1 b.1 = true

/-- `sorted(d.items())` as performed by `json.dumps(..., sort_keys=True)`. -/
def sortByKey {α : Type} (l : List (String × α)) : List (String × α) :=
  List.insertionSort keyRel l

def dumpVal : JVal → String
  | .jnum n => toString n
  | .jstr s => jsonStr s

def dumpTxn (t : Txn) : String :=
  "\x7b" ++ joinComma ((sortByKey t).map (fun kv => jsonStr kv.1 ++ ": " ++ dumpVal kv.2)) ++ "\x7d"

def dumpTxns (ts : List Txn) : String :=
  "[" ++ joinComma (ts.map dumpTxn) ++ "]"

def dumpField : JField → String
  | .fnum n => toString n
  | .fstr s => jsonStr s
  | .ftxns ts => dumpTxns ts

/-- `json.dumps(block, sort_keys=True)` for a block-shaped dictionary. -/
def dumpBlockDict (d : BlockDict) : String :=
  "\x7b" ++ joinComma ((sortByKey d).map (fun kv => jsonStr kv.1 ++ ": " ++ dumpField kv.2)) ++ "\x7d"

/-- A block as plain data (the dictionary contents, dereferenced). -/
structure Block where
  index : Nat
  created_at : Nat
  transactions : List Txn
  proof : Nat
  previous_hash : String

/-- The block dictionary in the insertion order used by `Blockchain.new_block`. -/
def blockDict (b : Block) : BlockDict :=
  [("index", .fnum b.index), ("created_at", .fnum b.created_at),
   ("transactions", .ftxns b.transactions), ("proof", .fnum b.proof),
   ("previous_hash", .fstr b.previous_hash)]

namespace Blockchain

/-- `Blockchain.hash`: SHA-256 of the canonical serialization of a block
dictionary. -/
def hash (d : BlockDict) : String := sha256hex (dumpBlockDict d)

end Blockchain

/-- The exact byte string fed to SHA-256 when hashing a block. -/
def hashInput (b : Block) : String := dumpBlockDict (blockDict b)

def blockHash (b : Block) : String := Blockchain.hash (blockDict b)

/-- Cross-check of the canonical serialization against `json.dumps` with
sorted keys. -/
theorem dumpBlockDict_vector :
    dumpBlockDict (blockDict
      { index := 1, created_at := 1760002870, transactions := [],
        proof := 100, previous_hash := "1" }) =
    "\x7b\"created_at\": 1760002870, \"index\": 1, \"previous_hash\": \"1\", \"proof\": 100, \"transactions\": []\x7d" := by
  decide

/-- Cross-check of the block hash against `hashlib.sha256` of the canonical
serialization of a genesis-shaped block. -/
theorem blockHash_genesis_vector :
    blockHash { index := 1, created_at := 1760002870, transactions := [],
                proof := 100, previous_hash := "1" } =
    "f1c60250b713e135a1f9d6753fd0ce34152cecb9157a44a9c2f47f08b122119f" := by
  decide

/-- Cross-check of the block hash for a block carrying one reward
transaction. -/
theorem blockHash_reward_vector :
    blockHash { index := 1, created_at := 1760002870,
                transactions := [[("sender", .jstr "0"), ("recipient", .jstr "n"), ("amount", .jnum 1)]],
                proof := 100, previous_hash := "1" } =
    "3b206ef38b3e165dcc615a066374f891fd63e823001072bf8a416c2bec7b578b" := by
  decide

/-! ### Engine state

Python list objects are mutable and shared by reference: the pool
`current_transactions` and the `transactions` entry of the block minted last
point at the same list.  The embedding makes this explicit with a heap
(`store`) of list objects addressed by index; `poolRef` is the reference held
in `current_transactions`, and each block holds the reference `txRef` to its
transactions list. -/

structure BlockRef where
  index : Nat
  created_at : Nat
  txRef : Nat
  proof : Nat
  previous_hash : String

structure EngineState where
  store : List (List Txn)
  poolRef : Nat
  chain : List BlockRef
  nodes : List String

/-- Read a block through the heap: the dictionary contents an observer sees. -/
def deref (s : EngineState) (b : BlockRef) : Block :=
  { index := b.index, created_at := b.created_at,
    transactions := s.store.getD b.txRef [], proof := b.proof,
    previous_hash := b.previous_hash }

def chainView (s : EngineState) : List Block := s.chain.map (deref s)

def poolView (s : EngineState) : List Txn := s.store.getD s.poolRef []

namespace Blockchain

/-- `Blockchain.valid_proof`. -/
def valid_proof (last_proof proof : Nat) (last_hash : String) : Bool :=
  (sha256hex (toString last_proof ++ toString proof ++ last_hash)).take 4 == "0000"

/-- The `while not valid_proof: proof += 1` loop of `proof_of_work`, with
explicit fuel: `some p` exactly when the loop, started at `p0`, halts at `p`
within `fuel` iterations. -/
def powSearch (last_proof : Nat) (last_hash : String) : Nat → Nat → Option Nat
  | 0, _ => none
  | fuel + 1, p =>
      if valid_proof last_proof p last_hash then some p
      else powSearch last_proof last_hash fuel (p + 1)

/-- `Blockchain.proof_of_work` (the loop recomputes `hash(last_block)` each
iteration in the source, but the block is not mutated during the search, so a
single computation is equivalent). -/
def proof_of_work (last_block : Block) (fuel : Nat) : Option Nat :=
  powSearch last_block.proof (blockHash last_block) fuel 0

/-- The `while current_index < len(chain)` walk of `valid_chain`, carrying
the previous block. -/
def validFrom (last_block : Block) : List Block → Bool
  | [] => true
  | block :: rest =>
      let last_block_hash := blockHash last_block
      if block.previous_hash ≠ last_block_hash then false
      else if valid_proof last_block.proof block.proof last_block_hash = false then false
      else validFrom block rest

/-- `Blockchain.valid_chain`; `none` models the `IndexError` that
`chain[0]` raises on an empty candidate. -/
def valid_chain : List Block → Option Bool
  | [] => none
  | b :: rest => some (validFrom b rest)

/-- `Blockchain.new_block`.  The source resets `current_transactions` to a
fresh list object FIRST and then stores that very object in the new block
dictionary; the heap allocation at `r` reproduces this.  The `previous_hash
or self.hash(self.chain[-1])` fallback is kept exactly; the inner `none`
branch mirrors the `IndexError` path, never reached by the engine because
the only falsy-`previous_hash` call never happens. -/
def new_block (proof : Nat) (previous_hash : String) (now : Nat) (s : EngineState) :
    EngineState :=
  let r := s.store.length
  let s1 : EngineState := { s with store := s.store ++ [[]], poolRef := r }
  let ph := if previous_hash ≠ "" then previous_hash
            else match s.chain.getLast? with
                 | some lb => blockHash (deref s1 lb)
                 | none => ""
  { s1 with chain := s.chain ++ [{ index := s.chain.length + 1, created_at := now,
                                   txRef := r, proof := proof, previous_hash := ph }] }

/-- `Blockchain.new_transaction`: appends into the pool list object and
returns the index of `self.last_block` plus one (the `0` default is the dead
empty-chain branch, where the source would raise). -/
def new_transaction (transaction : Txn) (s : EngineState) : EngineState × Nat :=
  let s1 : EngineState := { s with store := s.store.set s.poolRef (poolView s ++ [transaction]) }
  (s1, (match s.chain.getLast? with | some b => b.index | none => 0) + 1)

/-- `Blockchain.__init__`: empty pool object, empty chain, then the genesis
mint `new_block` with previous hash "1" and proof 100. -/
def init (now : Nat) : EngineState :=
  new_block 100 "1" now { store := [[]], poolRef := 0, chain := [], nodes := [] }

/-- `Blockchain.last_block` (`self.chain[-1]`). -/
def last_block (s : EngineState) : Option BlockRef := s.chain.getLast?

end Blockchain

/-! ### The `mine` flow of the HTTP layer (`app.py`) -/

/-- The reward transaction: sender "0", recipient `node_identifier`, amount 1. -/
def rewardTxn (node_identifier : String) : Txn :=
  [("sender", .jstr "0"), ("recipient", .jstr node_identifier), ("amount", .jnum 1)]

/-- The `mine` handler: snapshot `last_block`, run `proof_of_work` on it,
append the reward transaction, then hash `last_block` AGAIN (now mutated
through the pool alias) and mint.  `none` when the chain is empty (cannot
happen) or the search exceeds the fuel. -/
def mine (node_identifier : String) (now fuel : Nat) (s : EngineState) :
    Option EngineState :=
  match Blockchain.last_block s with
  | none => none
  | some lastRef =>
      match Blockchain.proof_of_work (deref s lastRef) fuel with
      | none => none
      | some proof =>
          let s1 := (Blockchain.new_transaction (rewardTxn node_identifier) s).1
          let previous_hash := blockHash (deref s1 lastRef)
          some (Blockchain.new_block proof previous_hash now s1)

/-! ### Consensus (`resolve_conflicts`) -/

/-- Outcome of the `requests.get` call against the chain endpoint of a peer: either an HTTP
response (with the parsed `length` and `chain` fields, read only when the
status is 200) or a raised transport exception. -/
inductive FetchOutcome where
  | resp (status : Nat) (length : Int) (chain : List Block)
  | err

namespace Blockchain

/-- The peer scan of `resolve_conflicts`.  A raised fetch (`.err`) or an
`IndexError` inside `valid_chain` propagates, aborting the scan
(`Except.error`); a non-200 response or a non-qualifying chain is skipped. -/
def resolveLoop (fetch : String → FetchOutcome) :
    List String → Int → Option (List Block) → Except Unit (Option (List Block))
  | [], _, best => .ok best
  | node :: rest, max_length, best =>
      match fetch node with
      | .err => .error ()
      | .resp status length chain =>
          if status = 200 then
            if length > max_length then
              match valid_chain chain with
              | none => .error ()
              | some true => resolveLoop fetch rest length (some chain)
              | some false => resolveLoop fetch rest max_length best
            else resolveLoop fetch rest max_length best
          else resolveLoop fetch rest max_length best

/-- Adopting a peer chain: the parsed JSON blocks own fresh list objects,
allocated at the end of the heap. -/
def allocBlocks (base : Nat) : List Block → List BlockRef
  | [] => []
  | b :: rest =>
      { index := b.index, created_at := b.created_at, txRef := base,
        proof := b.proof, previous_hash := b.previous_hash } :: allocBlocks (base + 1) rest

def adoptChain (c : List Block) (s : EngineState) : EngineState :=
  { s with chain := allocBlocks s.store.length c,
           store := s.store ++ c.map (fun b => b.transactions) }

/-- `Blockchain.resolve_conflicts`, parametrized by the fetch function.
`if new_chain:` is Python truthiness: `None` and the empty list are both
falsy (the empty-list case is unreachable, since `valid_chain([])` raises
before an empty chain can be recorded). -/
def resolve_conflicts (fetch : String → FetchOutcome) (s : EngineState) :
    Except Unit (EngineState × Bool) :=
  match resolveLoop fetch s.nodes (s.chain.length : Int) none with
  | .error _ => .error ()
  | .ok none => .ok (s, false)
  | .ok (some new_chain) =>
      if new_chain.isEmpty then .ok (s, false)
      else .ok (adoptChain new_chain s, true)

end Blockchain

/-! ### Properties of the key order used by `sort_keys=True` -/

theorem charListLe_total : ∀ as bs, charListLe as bs = true ∨ charListLe bs as = true := by
  intro as
  induction as with
  | nil => intro bs; left; rfl
  | cons a as ih =>
    intro bs
    cases bs with
    | nil => right; rfl
    | cons b bs =>
      simp only [charListLe]
      rcases Nat.lt_trichotomy a.toNat b.toNat with h | h | h
      · left; rw [if_pos h]
      · rw [if_neg (by omega), if_neg (by omega), if_neg (by omega), if_neg (by omega)]
        exact ih bs
      · right; rw [if_pos h]

theorem charListLe_trans :
    ∀ as bs cs, charListLe as bs = true → charListLe bs cs = true →
      charListLe as cs = true := by
  intro as
  induction as with
  | nil => intro bs cs _ _; rfl
  | cons a as ih =>
    intro bs cs h1 h2
    cases bs with
    | nil => simp [charListLe] at h1
    | cons b bs =>
      cases cs with
      | nil => simp [charListLe] at h2
      | cons c cs =>
        simp only [charListLe] at h1 h2 ⊢
        rcases Nat.lt_trichotomy a.toNat b.toNat with h | h | h
        · rcases Nat.lt_trichotomy b.toNat c.toNat with g | g | g
          · rw [if_pos (by omega)]
          · rw [if_pos (by omega)]
          · rw [if_neg (by omega), if_pos g] at h2; simp at h2
        · rcases Nat.lt_trichotomy b.toNat c.toNat with g | g | g
          · rw [if_pos (by omega)]
          · rw [if_neg (by omega), if_neg (by omega)] at h1
            rw [if_neg (by omega), if_neg (by omega)] at h2
            rw [if_neg (by omega), if_neg (by omega)]
            exact ih bs cs h1 h2
          · rw [if_neg (by omega), if_pos g] at h2; simp at h2
        · rw [if_neg (by omega), if_pos h] at h1; simp at h1

theorem charListLe_antisymm :
    ∀ as bs, charListLe as bs = true → charListLe bs as = true → as = bs := by
  intro as
  induction as with
  | nil =>
    intro bs h1 h2
    cases bs with
    | nil => rfl
    | cons b bs => simp [charListLe] at h2
  | cons a as ih =>
    intro bs h1 h2
    cases bs with
    | nil => simp [charListLe] at h1
    | cons b bs =>
      simp only [charListLe] at h1 h2
      rcases Nat.lt_trichotomy a.toNat b.toNat with h | h | h
      · rw [if_neg (by omega), if_pos h] at h2; simp at h2
      · have hab : a = b := Char.ext (UInt32.ext h)
        rw [if_neg (by omega), if_neg (by omega)] at h1
        rw [if_neg (by omega), if_neg (by omega)] at h2
        rw [hab, ih bs h1 h2]
      · rw [if_neg (by omega), if_pos h] at h1; simp at h1

theorem keyLe_antisymm (a b : String) (h1 : keyLe a b = true) (h2 : keyLe b a = true) :
    a = b :=
  String.ext (charListLe_antisymm a.data b.data h1 h2)

instance {α : Type} : IsTotal (String × α) keyRel :=
  ⟨fun a b => charListLe_total a.1.data b.1.data⟩

instance {α : Type} : IsTrans (String × α) keyRel :=
  ⟨fun a b c h1 h2 => charListLe_trans a.1.data b.1.data c.1.data h1 h2⟩

/-- Strict version of the key order, antisymmetric even on key-value pairs. -/
abbrev keyStrict {α : Type} (a b : String × α) : Prop :=
  keyRel a b ∧ a.1 ≠ b.1

instance {α : Type} : IsAntisymm (String × α) keyStrict :=
  ⟨fun a b h1 h2 => absurd (keyLe_antisymm a.1 b.1 h1.1 h2.1) h1.2⟩

theorem sortByKey_sorted_strict {α : Type} (l : List (String × α))
    (h : (l.map Prod.fst).Nodup) : List.Sorted keyStrict (sortByKey l) := by
  have hs : List.Sorted keyRel (sortByKey l) := List.sorted_insertionSort keyRel l
  have hp : List.Perm (sortByKey l) l := List.perm_insertionSort keyRel l
  have h2 : ((sortByKey l).map Prod.fst).Nodup := ((hp.map Prod.fst).nodup_iff).mpr h
  rw [List.Nodup, List.pairwise_map] at h2
  exact hs.and h2

theorem sortByKey_eq_of_perm {α : Type} (l1 l2 : List (String × α)) (hp : l1.Perm l2)
    (hnd : (l1.map Prod.fst).Nodup) : sortByKey l1 = sortByKey l2 := by
  have hnd2 : (l2.map Prod.fst).Nodup := ((hp.map Prod.fst).nodup_iff).mp hnd
  exact List.eq_of_perm_of_sorted
    ((List.perm_insertionSort keyRel l1).trans (hp.trans (List.perm_insertionSort keyRel l2).symm))
    (sortByKey_sorted_strict l1 hnd) (sortByKey_sorted_strict l2 hnd2)

/-! ### Proof-of-work search -/

theorem powSearch_spec (lp : Nat) (lh : String) :
    ∀ fuel p0 p, Blockchain.powSearch lp lh fuel p0 = some p →
      p0 ≤ p ∧ Blockchain.valid_proof lp p lh = true ∧
      ∀ q, p0 ≤ q → q < p → Blockchain.valid_proof lp q lh = false := by
  intro fuel
  induction fuel with
  | zero => intro p0 p h; exact absurd h (by simp [Blockchain.powSearch])
  | succ n ih =>
    intro p0 p h
    simp only [Blockchain.powSearch] at h
    by_cases hv : Blockchain.valid_proof lp p0 lh = true
    · rw [if_pos hv] at h
      injection h with h
      subst h
      exact ⟨Nat.le_refl _, hv, fun q h1 h2 => absurd (Nat.lt_of_le_of_lt h1 h2) (Nat.lt_irrefl _)⟩
    · rw [if_neg hv] at h
      obtain ⟨h1, h2, h3⟩ := ih (p0 + 1) p h
      refine ⟨by omega, h2, fun q hq1 hq2 => ?_⟩
      rcases Nat.eq_or_lt_of_le hq1 with rfl | hlt
      · simpa using hv
      · exact h3 q (by omega) hq2

/-! ### Shared concrete inputs for witnesses -/

/-- A genesis-shaped block whose proof-of-work succeeds at nonce 6. -/
def demoBlock : Block :=
  { index := 1, created_at := 1760002870, transactions := [],
    proof := 100, previous_hash := "1" }

def txDemo : Txn := [("sender", .jstr "0"), ("recipient", .jstr "r"), ("amount", .jnum 1)]

/-! ### Claims -/

/-- C9: a freshly constructed engine has exactly one block, the genesis, with
previous hash "1", proof 100, index 1 and an empty transaction list. -/
theorem init_genesis_shape (now : Nat) :
    (Blockchain.init now).chain.length = 1 ∧
    chainView (Blockchain.init now) =
      [{ index := 1, created_at := now, transactions := [], proof := 100,
         previous_hash := "1" }] :=
  ⟨rfl, rfl⟩

/-- C1 (evaluating the code at the failing input): with one pending
transaction in the pool, minting resets the pool to a fresh empty list
BEFORE the block dictionary is built, so the transactions entry of the minted block
list is empty rather than the pre-mine pool contents; the pending
transaction instead sits inside the previous (here: genesis) block through
the pool alias. -/
theorem new_block_ignores_pending_pool :
    poolView (Blockchain.new_transaction txDemo (Blockchain.init 0)).1 = [txDemo] ∧
    chainView (Blockchain.new_block 7 "h" 1
        (Blockchain.new_transaction txDemo (Blockchain.init 0)).1) =
      [{ index := 1, created_at := 0, transactions := [txDemo], proof := 100,
         previous_hash := "1" },
       { index := 2, created_at := 1, transactions := [], proof := 7,
         previous_hash := "h" }] ∧
    poolView (Blockchain.new_block 7 "h" 1
        (Blockchain.new_transaction txDemo (Blockchain.init 0)).1) = [] :=
  ⟨rfl, rfl, rfl⟩

/-- The pairwise check `valid_chain` performs on each adjacent pair. -/
def stepOk (prev cur : Block) : Prop :=
  cur.previous_hash = blockHash prev ∧
  Blockchain.valid_proof prev.proof cur.proof (blockHash prev) = true

theorem validFrom_iff (rest : List Block) :
    ∀ b, Blockchain.validFrom b rest = true ↔ List.Chain stepOk b rest := by
  induction rest with
  | nil => intro b; simp [Blockchain.validFrom]
  | cons c cs ih =>
    intro b
    rw [List.chain_cons]
    simp only [Blockchain.validFrom]
    by_cases h1 : c.previous_hash = blockHash b
    · rw [if_neg (by simp [h1])]
      by_cases h2 : Blockchain.valid_proof b.proof c.proof (blockHash b) = false
      · rw [if_pos h2]
        simp [stepOk, h2]
      · have hv : Blockchain.valid_proof b.proof c.proof (blockHash b) = true := by
          simpa using h2
        rw [if_neg h2, ih c]
        constructor
        · intro h; exact ⟨⟨h1, hv⟩, h⟩
        · intro h; exact h.2
    · rw [if_pos h1]
      simp [stepOk, h1]

/-- C6: a (nonempty, as every chain with a genesis is) candidate passes
`valid_chain` exactly when every adjacent pair, starting at index 1,
satisfies both the previous-hash link and the proof check; the genesis block
itself is subject to no check of its own, and validation is a pure
function of the candidate. -/
theorem valid_chain_adjacent_pairs (b : Block) (rest : List Block) :
    Blockchain.valid_chain (b :: rest) = some true ↔ List.Chain stepOk b rest := by
  simp only [Blockchain.valid_chain, Option.some.injEq]
  constructor
  · intro h; exact (validFrom_iff rest b).mp h
  · intro h; rw [(validFrom_iff rest b).mpr h]

/-- C7: whenever the proof-of-work loop terminates, the returned proof
satisfies the four-leading-zero digest predicate over
`str(last_block.proof) + str(p) + hash(last_block)`, and no smaller
non-negative nonce does. -/
theorem proof_of_work_minimal (lb : Block) (fuel p : Nat)
    (h : Blockchain.proof_of_work lb fuel = some p) :
    Blockchain.valid_proof lb.proof p (blockHash lb) = true ∧
    ∀ q, q < p → Blockchain.valid_proof lb.proof q (blockHash lb) = false := by
  obtain ⟨-, h2, h3⟩ := powSearch_spec lb.proof (blockHash lb) fuel 0 p h
  exact ⟨h2, fun q hq => h3 q (Nat.zero_le q) hq⟩

/-- C7 witness: on `demoBlock` the search halts at 6, which qualifies while
nonce 0 does not. -/
theorem proof_of_work_minimal_witness :
    Blockchain.valid_proof demoBlock.proof 6 (blockHash demoBlock) = true ∧
    Blockchain.valid_proof demoBlock.proof 0 (blockHash demoBlock) = false := by
  have h := proof_of_work_minimal demoBlock 10 6 (by decide)
  exact ⟨h.1, h.2 0 (by decide)⟩

/-- C8 as stated is false: the spec swaps the first two arguments of the
verification predicate.  On `demoBlock` the search output is 6, yet
`valid_proof(6, demoBlock.proof, hash(demoBlock))` — solve output FIRST,
block proof second, as the claim prescribes — is false. -/
theorem verify_swapped_cex :
    Blockchain.proof_of_work demoBlock 10 = some 6 ∧
    Blockchain.valid_proof 6 demoBlock.proof (blockHash demoBlock) = false :=
  ⟨by decide, by decide⟩

/-- C8 amended: with the arguments in the order the code itself uses —
the own proof of the last block first, then the search output — the
proof-of-work result always satisfies the verification predicate. -/
theorem proof_of_work_satisfies (lb : Block) (fuel p : Nat)
    (h : Blockchain.proof_of_work lb fuel = some p) :
    Blockchain.valid_proof lb.proof p (blockHash lb) = true :=
  (powSearch_spec lb.proof (blockHash lb) fuel 0 p h).2.1

/-- C8 amended, instantiated on `demoBlock`. -/
theorem proof_of_work_satisfies_witness :
    Blockchain.valid_proof demoBlock.proof 6 (blockHash demoBlock) = true :=
  proof_of_work_satisfies demoBlock 10 6 (by decide)

/-- C10: the canonical block hash does not depend on the order in which the
fields of the block dictionary were inserted: any permutation of the
(distinct-keyed) field list yields the identical digest. -/
theorem hash_insertion_order_irrelevant (d1 d2 : BlockDict)
    (hp : d1.Perm d2) (hnd : (d1.map Prod.fst).Nodup) :
    Blockchain.hash d1 = Blockchain.hash d2 := by
  unfold Blockchain.hash dumpBlockDict
  rw [sortByKey_eq_of_perm d1 d2 hp hnd]

def dictA : BlockDict :=
  [("index", .fnum 1), ("created_at", .fnum 1760002870), ("transactions", .ftxns []),
   ("proof", .fnum 100), ("previous_hash", .fstr "1")]

def dictB : BlockDict :=
  [("created_at", .fnum 1760002870), ("index", .fnum 1), ("transactions", .ftxns []),
   ("proof", .fnum 100), ("previous_hash", .fstr "1")]

/-- C10 witness: two insertion orders of the same genesis dictionary. -/
theorem hash_insertion_order_irrelevant_witness :
    Blockchain.hash dictA = Blockchain.hash dictB :=
  hash_insertion_order_irrelevant dictA dictB
    (List.Perm.swap ("created_at", JField.fnum 1760002870) ("index", JField.fnum 1)
      [("transactions", JField.ftxns []), ("proof", JField.fnum 100),
       ("previous_hash", JField.fstr "1")])
    (by decide)

/-! ### The digest and the serialized block -/

theorem hex8_length (n : Nat) : (hex8 n).length = 8 := rfl

theorem sha256hex_length (s : String) : (sha256hex s).length = 64 := by
  simp [sha256hex, digestHex, String.length_append, hex8_length]

theorem blockHash_ne_empty (b : Block) : blockHash b ≠ "" := by
  intro h
  have := congrArg String.length h
  rw [show blockHash b = sha256hex (dumpBlockDict (blockDict b)) from rfl] at this
  rw [sha256hex_length] at this
  simp at this

/-- The five block keys in the order `sort_keys=True` produces. -/
theorem sortByKey_blockDict (b : Block) :
    sortByKey (blockDict b) =
      [("created_at", JField.fnum (b.created_at : Int)), ("index", JField.fnum (b.index : Int)),
       ("previous_hash", JField.fstr b.previous_hash), ("proof", JField.fnum (b.proof : Int)),
       ("transactions", JField.ftxns b.transactions)] := rfl

theorem dumpTxn_length_ge (t : Txn) : 2 ≤ (dumpTxn t).length := by
  simp only [dumpTxn, String.length_append]
  have h1 : ("\x7b" : String).length = 1 := rfl
  have h2 : ("\x7d" : String).length = 1 := rfl
  omega

theorem joinComma_head_le (x : String) (xs : List String) :
    x.length ≤ (joinComma (x :: xs)).length := by
  cases xs with
  | nil => simp [joinComma]
  | cons y ys =>
    simp only [joinComma, String.length_append]
    omega

theorem dumpTxns_cons_length (t : Txn) (rest : List Txn) :
    4 ≤ (dumpTxns (t :: rest)).length := by
  simp only [dumpTxns, List.map_cons, String.length_append]
  have h1 := dumpTxn_length_ge t
  have h2 := joinComma_head_le (dumpTxn t) (rest.map dumpTxn)
  have h3 : ("[" : String).length = 1 := rfl
  have h4 : ("]" : String).length = 1 := rfl
  omega

/-- Appending transactions to a block strictly changes the byte string its
canonical hash is computed over (the serializations even have different
lengths). -/
theorem hashInput_ne (b : Block) (ts : List Txn) (hts : ts ≠ []) :
    hashInput { b with transactions := ts } ≠ hashInput { b with transactions := [] } := by
  obtain ⟨bi, bc, bt, bp, bh⟩ := b
  intro he
  have hl := congrArg String.length he
  simp only [hashInput, dumpBlockDict, sortByKey_blockDict, List.map_cons, List.map_nil,
    joinComma, dumpField, String.length_append] at hl
  obtain ⟨t, rest, rfl⟩ := List.exists_cons_of_ne_nil hts
  have h4 := dumpTxns_cons_length t rest
  have h2 : (dumpTxns ([] : List Txn)).length = 2 := rfl
  omega

/-! ### List-heap helper lemmas -/

theorem getD_set_self {α : Type} (l : List α) (i : Nat) (a d : α) (h : i < l.length) :
    (l.set i a).getD i d = a := by
  simp [List.getD]
  rw [List.getElem?_set_self]
  · rfl
  · exact h

theorem getD_append_mid {α : Type} (pre : List α) (x : α) (rest : List α) (d : α) :
    (pre ++ x :: rest).getD pre.length d = x := by
  simp [List.getD_append_right, List.getElem_append_right]

/-! ### Sequences of `new_transaction` calls -/

/-- Running a sequence of `new_transaction` calls (states only). -/
def applyTxns : List Txn → EngineState → EngineState
  | [], s => s
  | t :: ts, s => applyTxns ts (Blockchain.new_transaction t s).1

theorem applyTxns_chain : ∀ ts (s : EngineState), (applyTxns ts s).chain = s.chain := by
  intro ts
  induction ts with
  | nil => intro s; rfl
  | cons t ts ih => intro s; exact (ih (Blockchain.new_transaction t s).1).trans rfl

theorem applyTxns_poolRef : ∀ ts (s : EngineState), (applyTxns ts s).poolRef = s.poolRef := by
  intro ts
  induction ts with
  | nil => intro s; rfl
  | cons t ts ih => intro s; exact (ih (Blockchain.new_transaction t s).1).trans rfl

theorem applyTxns_poolView : ∀ ts (s : EngineState), s.poolRef < s.store.length →
    poolView (applyTxns ts s) = poolView s ++ ts := by
  intro ts
  induction ts with
  | nil => intro s _; simp [applyTxns]
  | cons t ts ih =>
    intro s h
    show poolView (applyTxns ts (Blockchain.new_transaction t s).1) = poolView s ++ t :: ts
    have hb : (Blockchain.new_transaction t s).1.poolRef <
        (Blockchain.new_transaction t s).1.store.length := by
      simpa [Blockchain.new_transaction, List.length_set] using h
    rw [ih (Blockchain.new_transaction t s).1 hb]
    have hpv : poolView (Blockchain.new_transaction t s).1 = poolView s ++ [t] := by
      show (s.store.set s.poolRef (poolView s ++ [t])).getD s.poolRef [] = poolView s ++ [t]
      exact getD_set_self s.store s.poolRef (poolView s ++ [t]) [] h
    rw [hpv]
    simp [List.append_assoc]

/-! ### Claim C3 -/

/-- C3: after `new_block` returns, the transactions list of the appended block and
the pool are the same heap object (`txRef = poolRef`); consequently every
subsequent `new_transaction` up to the next mint also lands inside the newest
transactions of the newest block — mutating existing chain contents — and changes the
byte string the canonical hash of that block is computed from. -/
theorem new_block_aliases_pool (s s1 s2 : EngineState) (bRef : BlockRef) (pr now : Nat)
    (ph : String) (ts : List Txn) (hts : ts ≠ [])
    (hs1 : s1 = Blockchain.new_block pr ph now s)
    (hb : s1.chain.getLast? = some bRef)
    (hs2 : s2 = applyTxns ts s1) :
    bRef.txRef = s1.poolRef ∧
    (deref s1 bRef).transactions = [] ∧
    s2.chain = s1.chain ∧
    (deref s2 bRef).transactions = ts ∧
    poolView s2 = ts ∧
    hashInput (deref s2 bRef) ≠ hashInput (deref s1 bRef) := by
  subst hs1
  subst hs2
  simp only [Blockchain.new_block] at hb
  rw [List.getLast?_concat] at hb
  injection hb with hb
  have h1 : bRef.txRef = (Blockchain.new_block pr ph now s).poolRef := by
    rw [← hb]
    rfl
  have hbound : (Blockchain.new_block pr ph now s).poolRef <
      (Blockchain.new_block pr ph now s).store.length := by
    simp [Blockchain.new_block]
  have hget1 : (Blockchain.new_block pr ph now s).store.getD bRef.txRef [] = [] := by
    rw [← hb]
    exact getD_append_mid s.store [] [] []
  have hpv : poolView (applyTxns ts (Blockchain.new_block pr ph now s)) = ts := by
    rw [applyTxns_poolView ts (Blockchain.new_block pr ph now s) hbound]
    rw [show poolView (Blockchain.new_block pr ph now s) = [] from
      getD_append_mid s.store [] [] []]
    exact List.nil_append ts
  have hprf : (applyTxns ts (Blockchain.new_block pr ph now s)).poolRef = s.store.length :=
    (applyTxns_poolRef ts (Blockchain.new_block pr ph now s)).trans rfl
  have hget2 : (applyTxns ts (Blockchain.new_block pr ph now s)).store.getD bRef.txRef [] =
      ts := by
    rw [← hb]
    show (applyTxns ts (Blockchain.new_block pr ph now s)).store.getD s.store.length [] = ts
    rw [← hprf]
    exact hpv
  have e2 : deref (applyTxns ts (Blockchain.new_block pr ph now s)) bRef =
      { deref (Blockchain.new_block pr ph now s) bRef with transactions := ts } := by
    simp only [deref]
    rw [hget2]
  have e1 : { deref (Blockchain.new_block pr ph now s) bRef with transactions := ([] : List Txn) } =
      deref (Blockchain.new_block pr ph now s) bRef := by
    simp only [deref]
    rw [hget1]
  refine ⟨h1, hget1, applyTxns_chain ts _, hget2, hpv, ?_⟩
  rw [e2, ← e1]
  exact hashInput_ne _ ts hts

def s1W : EngineState := Blockchain.new_block 7 "x" 1 (Blockchain.init 0)

def bRefW : BlockRef :=
  { index := 2, created_at := 1, txRef := 2, proof := 7, previous_hash := "x" }

def s2W : EngineState := applyTxns [txDemo] s1W

/-- C3 witness: a concrete mint followed by one submission. -/
theorem new_block_aliases_pool_witness :
    bRefW.txRef = s1W.poolRef ∧
    (deref s1W bRefW).transactions = [] ∧
    s2W.chain = s1W.chain ∧
    (deref s2W bRefW).transactions = [txDemo] ∧
    poolView s2W = [txDemo] ∧
    hashInput (deref s2W bRefW) ≠ hashInput (deref s1W bRefW) :=
  new_block_aliases_pool (Blockchain.init 0) s1W s2W bRefW 7 1 "x" [txDemo]
    (by simp) rfl rfl rfl

/-! ### Claim C2 -/

/-- The genesis block as it stands when `mine` snapshots it. -/
def gPre (t0 : Nat) : Block :=
  { index := 1, created_at := t0, transactions := [], proof := 100, previous_hash := "1" }

/-- The same block after the reward transaction has been appended through
the pool alias. -/
def gPost (t0 : Nat) (nid : String) : Block :=
  { gPre t0 with transactions := [rewardTxn nid] }

/-- The block `mine` appends. -/
def minedBlock (t0 : Nat) (nid : String) (now p : Nat) : Block :=
  { index := 2, created_at := now, transactions := [], proof := p,
    previous_hash := blockHash (gPost t0 nid) }

/-- The engine state after `mine` on a fresh engine. -/
def minedState (t0 : Nat) (nid : String) (now p : Nat) : EngineState :=
  { store := [[], [rewardTxn nid], []], poolRef := 2,
    chain := [{ index := 1, created_at := t0, txRef := 1, proof := 100, previous_hash := "1" },
              { index := 2, created_at := now, txRef := 2, proof := p,
                previous_hash := blockHash (gPost t0 nid) }],
    nodes := [] }

theorem mine_init_eq (t0 : Nat) (nid : String) (now fuel p : Nat)
    (hp : Blockchain.proof_of_work (gPre t0) fuel = some p) :
    mine nid now fuel (Blockchain.init t0) = some (minedState t0 nid now p) := by
  change (match Blockchain.proof_of_work (gPre t0) fuel with
          | none => none
          | some proof => some (Blockchain.new_block proof (blockHash (gPost t0 nid)) now
              { store := [[], [rewardTxn nid]], poolRef := 1,
                chain := [{ index := 1, created_at := t0, txRef := 1, proof := 100,
                            previous_hash := "1" }], nodes := [] })) =
        some (minedState t0 nid now p)
  rw [hp]
  show some (Blockchain.new_block p (blockHash (gPost t0 nid)) now
      { store := [[], [rewardTxn nid]], poolRef := 1,
        chain := [{ index := 1, created_at := t0, txRef := 1, proof := 100,
                    previous_hash := "1" }], nodes := [] }) = some (minedState t0 nid now p)
  simp only [Blockchain.new_block]
  rw [if_pos (blockHash_ne_empty (gPost t0 nid))]
  rfl

/-- C2: `mine` searches the proof against the hash of the snapshotted last
block, then appends the reward transaction into that very block through the
pool alias, and finally links the new block to the hash recomputed AFTER the
mutation.  So the stored proof was searched against the pre-append
serialization, the pre- and post-append hash inputs differ as byte strings,
and `valid_chain` — which recomputes the post-append hash — rejects the
freshly mined chain whenever the stale proof misses the post-append digest
check (hypothesis `hmiss`, excluding only a coincidental digest-prefix hit). -/
theorem mine_stores_stale_proof (t0 : Nat) (nid : String) (now fuel : Nat)
    (s2 : EngineState) (p : Nat)
    (hmine : mine nid now fuel (Blockchain.init t0) = some s2)
    (hpow : Blockchain.proof_of_work (gPre t0) fuel = some p)
    (hmiss : Blockchain.valid_proof (gPre t0).proof p (blockHash (gPost t0 nid)) = false) :
    chainView s2 = [gPost t0 nid, minedBlock t0 nid now p] ∧
    Blockchain.valid_proof (gPre t0).proof p (blockHash (gPre t0)) = true ∧
    hashInput (gPre t0) ≠ hashInput (gPost t0 nid) ∧
    Blockchain.valid_chain (chainView s2) = some false := by
  rw [mine_init_eq t0 nid now fuel p hpow] at hmine
  injection hmine with hmine
  subst hmine
  have hcv : chainView (minedState t0 nid now p) =
      [gPost t0 nid, minedBlock t0 nid now p] := rfl
  refine ⟨hcv, ?_, ?_, ?_⟩
  · exact (powSearch_spec (gPre t0).proof (blockHash (gPre t0)) fuel 0 p hpow).2.1
  · intro he
    exact hashInput_ne (gPre t0) [rewardTxn nid] (by simp) he.symm
  · rw [hcv]
    have hmiss2 : Blockchain.valid_proof (gPost t0 nid).proof (minedBlock t0 nid now p).proof
        (blockHash (gPost t0 nid)) = false := hmiss
    simp only [Blockchain.valid_chain, Blockchain.validFrom]
    have hne : ¬((minedBlock t0 nid now p).previous_hash ≠ blockHash (gPost t0 nid)) :=
      not_not_intro rfl
    rw [if_neg hne]
    rw [if_pos hmiss2]

def emptyEngine : EngineState := { store := [], poolRef := 0, chain := [], nodes := [] }

def minedW : EngineState := (mine "n" 5 10 (Blockchain.init 1760002870)).getD emptyEngine

/-- C2 witness: a concrete mine on a fresh engine; the stale proof misses the
post-append hash and the chain fails validation. -/
theorem mine_stores_stale_proof_witness :
    chainView minedW = [gPost 1760002870 "n", minedBlock 1760002870 "n" 5 6] ∧
    Blockchain.valid_proof (gPre 1760002870).proof 6 (blockHash (gPre 1760002870)) = true ∧
    hashInput (gPre 1760002870) ≠ hashInput (gPost 1760002870 "n") ∧
    Blockchain.valid_chain (chainView minedW) = some false :=
  mine_stores_stale_proof 1760002870 "n" 5 10 minedW 6 (by rfl) (by decide) (by decide)

/-! ### Consensus lemmas -/

theorem resolveLoop_ok_some (fetch : String → FetchOutcome) :
    ∀ (nodes : List String) (maxLen : Int) (best : Option (List Block)) (c : List Block),
      Blockchain.resolveLoop fetch nodes maxLen best = .ok (some c) →
      best = some c ∨
      ∃ n len, n ∈ nodes ∧ fetch n = FetchOutcome.resp 200 len c ∧ maxLen < len ∧
        Blockchain.valid_chain c = some true := by
  intro nodes
  induction nodes with
  | nil =>
    intro maxLen best c h
    simp only [Blockchain.resolveLoop] at h
    injection h with h
    left; exact h
  | cons m ms ih =>
    intro maxLen best c h
    simp only [Blockchain.resolveLoop] at h
    cases hf : fetch m with
    | err => simp only [hf] at h; exact Except.noConfusion h
    | resp status len chain =>
      simp only [hf] at h
      by_cases hs : status = 200
      · subst hs
        rw [if_pos rfl] at h
        by_cases hl : len > maxLen
        · rw [if_pos hl] at h
          cases hv : Blockchain.valid_chain chain with
          | none => simp only [hv] at h; exact Except.noConfusion h
          | some bb =>
            simp only [hv] at h
            cases bb with
            | false =>
              rcases ih maxLen best c h with heq | ⟨n, len2, hmem, hf2, hlt2, hv2⟩
              · left; exact heq
              · right; exact ⟨n, len2, List.mem_cons_of_mem m hmem, hf2, hlt2, hv2⟩
            | true =>
              rcases ih len (some chain) c h with heq | ⟨n, len2, hmem, hf2, hlt2, hv2⟩
              · injection heq with heq
                subst heq
                right; exact ⟨m, len, List.mem_cons_self m ms, hf, hl, hv⟩
              · right; exact ⟨n, len2, List.mem_cons_of_mem m hmem, hf2, lt_trans hl hlt2, hv2⟩
        · rw [if_neg hl] at h
          rcases ih maxLen best c h with heq | ⟨n, len2, hmem, hf2, hlt2, hv2⟩
          · left; exact heq
          · right; exact ⟨n, len2, List.mem_cons_of_mem m hmem, hf2, hlt2, hv2⟩
      · rw [if_neg hs] at h
        rcases ih maxLen best c h with heq | ⟨n, len2, hmem, hf2, hlt2, hv2⟩
        · left; exact heq
        · right; exact ⟨n, len2, List.mem_cons_of_mem m hmem, hf2, hlt2, hv2⟩

theorem allocBlocks_map_deref (pr : Nat) (ch : List BlockRef) (nd : List String) :
    ∀ (c : List Block) (pre : List (List Txn)),
      (Blockchain.allocBlocks pre.length c).map
        (deref { store := pre ++ c.map (fun bl => bl.transactions), poolRef := pr,
                 chain := ch, nodes := nd }) = c := by
  intro c
  induction c with
  | nil => intro pre; rfl
  | cons bl bls ih =>
    intro pre
    simp only [Blockchain.allocBlocks, List.map_cons]
    congr 1
    · show Block.mk bl.index bl.created_at
          ((pre ++ bl.transactions :: bls.map (fun x => x.transactions)).getD pre.length [])
          bl.proof bl.previous_hash = bl
      rw [getD_append_mid]
    · rw [show pre ++ bl.transactions :: bls.map (fun x => x.transactions) =
            (pre ++ [bl.transactions]) ++ bls.map (fun x => x.transactions) from by simp]
      rw [show pre.length + 1 = (pre ++ [bl.transactions]).length from by simp]
      exact ih (pre ++ [bl.transactions])

theorem chainView_adoptChain (c : List Block) (s : EngineState) :
    chainView (Blockchain.adoptChain c s) = c :=
  allocBlocks_map_deref s.poolRef (Blockchain.allocBlocks s.store.length c) s.nodes c s.store

/-- C4: when the scan completes, the chain is replaced only by a fetched
chain reported with HTTP 200, whose reported length strictly exceeds the
local chain length (the initial running maximum) and which passes
`valid_chain`; the replacement is a wholesale swap of the chain; with no
qualifying candidate the state is untouched and the result is `false`. -/
theorem resolve_conflicts_spec (fetch : String → FetchOutcome) (s s2 : EngineState) (b : Bool)
    (h : Blockchain.resolve_conflicts fetch s = .ok (s2, b)) :
    (b = false → s2 = s) ∧
    (b = true → ∃ n len c, n ∈ s.nodes ∧ fetch n = FetchOutcome.resp 200 len c ∧
      (s.chain.length : Int) < len ∧ Blockchain.valid_chain c = some true ∧
      chainView s2 = c ∧ s2.poolRef = s.poolRef ∧ s2.nodes = s.nodes) := by
  unfold Blockchain.resolve_conflicts at h
  cases hr : Blockchain.resolveLoop fetch s.nodes (s.chain.length : Int) none with
  | error e =>
    rw [hr] at h
    exact Except.noConfusion
      (show (Except.error () : Except Unit (EngineState × Bool)) = Except.ok (s2, b) from h)
  | ok o =>
    rw [hr] at h
    cases o with
    | none =>
      have h2 : (Except.ok (s, false) : Except Unit (EngineState × Bool)) =
          Except.ok (s2, b) := h
      injection h2 with h2
      injection h2 with ha hb
      constructor
      · intro _; exact ha.symm
      · intro hbt; rw [← hb] at hbt; exact absurd hbt (by simp)
    | some c =>
      by_cases hc : c.isEmpty = true
      · have h2 : (Except.ok (s, false) : Except Unit (EngineState × Bool)) =
            Except.ok (s2, b) := by
          have h3 : (if c.isEmpty = true then
              (Except.ok (s, false) : Except Unit (EngineState × Bool))
              else Except.ok (Blockchain.adoptChain c s, true)) = Except.ok (s2, b) := h
          rwa [if_pos hc] at h3
        injection h2 with h2
        injection h2 with ha hb
        constructor
        · intro _; exact ha.symm
        · intro hbt; rw [← hb] at hbt; exact absurd hbt (by simp)
      · have h2 : (Except.ok (Blockchain.adoptChain c s, true) :
            Except Unit (EngineState × Bool)) = Except.ok (s2, b) := by
          have h3 : (if c.isEmpty = true then
              (Except.ok (s, false) : Except Unit (EngineState × Bool))
              else Except.ok (Blockchain.adoptChain c s, true)) = Except.ok (s2, b) := h
          rwa [if_neg hc] at h3
        injection h2 with h2
        injection h2 with ha hb
        subst ha
        constructor
        · intro hbf; rw [← hb] at hbf; exact absurd hbf (by simp)
        · intro _
          rcases resolveLoop_ok_some fetch s.nodes (s.chain.length : Int) none c hr with
            heq | ⟨n, len, hmem, hf, hlt, hv⟩
          · exact absurd heq (by simp)
          · exact ⟨n, len, c, hmem, hf, hlt, hv, chainView_adoptChain c s, rfl, rfl⟩

def chainW : List Block :=
  [gPre 1760002870,
   { index := 2, created_at := 7, transactions := [], proof := 6,
     previous_hash := blockHash (gPre 1760002870) }]

def sW : EngineState := { Blockchain.init 9 with nodes := ["peer"] }

def okFetch : String → FetchOutcome := fun _ => FetchOutcome.resp 200 2 chainW

def sW2 : EngineState := Blockchain.adoptChain chainW sW

/-- C4 witness: one peer offers a longer, internally valid chain; the local
chain is swapped wholesale for it and the result is `true`. -/
theorem resolve_conflicts_spec_witness :
    Blockchain.resolve_conflicts okFetch sW = Except.ok (sW2, true) ∧
    chainView sW2 = chainW ∧
    Blockchain.valid_chain chainW = some true := by
  have h : Blockchain.resolve_conflicts okFetch sW = Except.ok (sW2, true) := by rfl
  have hs := resolve_conflicts_spec okFetch sW sW2 true h
  obtain ⟨n, len, c, hmem, hf, hlt, hv, hcv, hpr, hnd⟩ := hs.2 rfl
  have he : okFetch n = FetchOutcome.resp 200 2 chainW := rfl
  rw [he] at hf
  injection hf with h1 h2 h3
  rw [← h3] at hcv hv
  exact ⟨h, hcv, hv⟩

/-! ### Claim C5 -/

theorem resolveLoop_err (fetch : String → FetchOutcome) :
    ∀ (nodes : List String) (maxLen : Int) (best : Option (List Block)) (n : String),
      n ∈ nodes → fetch n = FetchOutcome.err →
      Blockchain.resolveLoop fetch nodes maxLen best = .error () := by
  intro nodes
  induction nodes with
  | nil => intro _ _ n h _; exact absurd h (List.not_mem_nil n)
  | cons m ms ih =>
    intro maxLen best n hmem hf
    simp only [Blockchain.resolveLoop]
    cases hfm : fetch m with
    | err => simp only [hfm]
    | resp status len chain =>
      simp only [hfm]
      have hn : n ∈ ms := by
        rcases List.mem_cons.mp hmem with rfl | hmm2
        · rw [hf] at hfm; exact FetchOutcome.noConfusion hfm
        · exact hmm2
      by_cases hs : status = 200
      · rw [if_pos hs]
        by_cases hl : len > maxLen
        · rw [if_pos hl]
          cases hv : Blockchain.valid_chain chain with
          | none => rfl
          | some bb =>
            cases bb with
            | false => exact ih maxLen best n hn hf
            | true => exact ih len (some chain) n hn hf
        · rw [if_neg hl]; exact ih maxLen best n hn hf
      · rw [if_neg hs]; exact ih maxLen best n hn hf

theorem resolveLoop_skipAll (fetch : String → FetchOutcome) :
    ∀ (nodes : List String) (maxLen : Int) (best : Option (List Block)),
      (∀ n, n ∈ nodes → ∃ st len c, fetch n = FetchOutcome.resp st len c ∧ st ≠ 200) →
      Blockchain.resolveLoop fetch nodes maxLen best = .ok best := by
  intro nodes
  induction nodes with
  | nil => intro _ _ _; rfl
  | cons m ms ih =>
    intro maxLen best hall
    obtain ⟨st, len, c, hf, hst⟩ := hall m (List.mem_cons_self m ms)
    simp only [Blockchain.resolveLoop, hf]
    rw [if_neg hst]
    exact ih maxLen best (fun n hn => hall n (List.mem_cons_of_mem m hn))

/-- C5 amended: a peer answering with a non-200 HTTP status is treated as
producing no candidate and the scan continues (second conjunct); but a
transport-level fetch failure — the exception `requests.get` raises for an
unreachable or timed-out peer — is NOT caught: it propagates and aborts the
entire resolution (first conjunct). -/
theorem resolve_conflicts_error_handling :
    (∀ (fetch : String → FetchOutcome) (s : EngineState) (n : String),
        n ∈ s.nodes → fetch n = FetchOutcome.err →
        Blockchain.resolve_conflicts fetch s = .error ()) ∧
    (∀ (fetch : String → FetchOutcome) (s : EngineState),
        (∀ n, n ∈ s.nodes → ∃ st len c, fetch n = FetchOutcome.resp st len c ∧ st ≠ 200) →
        Blockchain.resolve_conflicts fetch s = .ok (s, false)) := by
  constructor
  · intro fetch s n hmem hf
    unfold Blockchain.resolve_conflicts
    rw [resolveLoop_err fetch s.nodes (s.chain.length : Int) none n hmem hf]
  · intro fetch s hall
    unfold Blockchain.resolve_conflicts
    rw [resolveLoop_skipAll fetch s.nodes (s.chain.length : Int) none hall]

def sPeers : EngineState := { Blockchain.init 3 with nodes := ["10.0.0.1:5000"] }

def errFetch : String → FetchOutcome := fun _ => FetchOutcome.err

def skipFetch : String → FetchOutcome := fun _ => FetchOutcome.resp 404 9 []

/-- C5 as stated is false: with a single unreachable peer the whole
resolution run raises instead of skipping the peer — the claimed
"skipped, not fatal" behaviour does not hold at this input. -/
theorem resolve_conflicts_err_fatal_cex :
    Blockchain.resolve_conflicts errFetch sPeers = Except.error () := rfl

/-- C5 amended witness: the abort branch and the non-200 skip branch at
concrete inputs. -/
theorem resolve_conflicts_error_handling_witness :
    Blockchain.resolve_conflicts errFetch sPeers = Except.error () ∧
    Blockchain.resolve_conflicts skipFetch sPeers = Except.ok (sPeers, false) :=
  ⟨resolve_conflicts_error_handling.1 errFetch sPeers "10.0.0.1:5000"
      (List.mem_cons_self "10.0.0.1:5000" []) rfl,
   resolve_conflicts_error_handling.2 skipFetch sPeers
      (fun n _ => ⟨404, 9, [], rfl, by omega⟩)⟩

end Blkchn
